import Mathlib

/-!  Shallow embedding of the PSD peak-finding pipeline from the
     voytek_PSD_peak_finding notebook.  Rational numbers stand in for
     IEEE floats; NaN-producing library calls are modelled with Option,
     where none plays the role of NaN.  Randomized resampling is
     modelled by an explicit index-choice oracle, and the randomized
     sklearn KMeans call is modelled by an inertia oracle (see
     inertiaOpt below for the spec-modelled exact objective). -/

namespace PSDFit

/-- State of the hysteresis scan in peakdect: the confirmed maxima and
minima so far, the running extremum candidates (none models the initial
minus and plus infinity together with the NaN positions, which the first
sample always overwrites), and the seeking flag lookformax.  Pairs are
stored as (coordinate, value). -/
structure PDState where
  maxtab : List (ℚ × ℚ)
  mintab : List (ℚ × ℚ)
  mx : Option (ℚ × ℚ)
  mn : Option (ℚ × ℚ)
  lookformax : Bool
deriving DecidableEq

/-- Initial peakdect state: mn, mx = Inf, -Inf and NaN positions. -/
def pdInit : PDState := ⟨[], [], none, none, true⟩

/-- Source line: if this > mx: mx = this; mxpos = x[i].  The none case
is minus infinity, which every sample exceeds. -/
def stepMx (s : PDState) (xi vi : ℚ) : PDState :=
  s.mx.elim { s with mx := some (xi, vi) }
    (fun m => if m.2 < vi then { s with mx := some (xi, vi) } else s)

/-- Source line: if this < mn: mn = this; mnpos = x[i].  The none case
is plus infinity, which every sample undercuts. -/
def stepMn (s : PDState) (xi vi : ℚ) : PDState :=
  s.mn.elim { s with mn := some (xi, vi) }
    (fun m => if vi < m.2 then { s with mn := some (xi, vi) } else s)

/-- Source: the lookformax branch of the loop body.  Confirming an
extremum appends it, reseeds the opposite candidate at the current
sample, and toggles the flag.  A none candidate compares like an
infinity and never triggers. -/
def stepTab (δ : ℚ) (s : PDState) (xi vi : ℚ) : PDState :=
  if s.lookformax then
    s.mx.elim s (fun m =>
      if vi < m.2 - δ then
        { s with maxtab := s.maxtab ++ [m], mn := some (xi, vi), lookformax := false }
      else s)
  else
    s.mn.elim s (fun m =>
      if m.2 + δ < vi then
        { s with mintab := s.mintab ++ [m], mx := some (xi, vi), lookformax := true }
      else s)

/-- One iteration of the peakdect loop on the sample (x[i], v[i]). -/
def pdStep (δ : ℚ) (s : PDState) (pr : ℚ × ℚ) : PDState :=
  stepTab δ (stepMn (stepMx s pr.1 pr.2) pr.1 pr.2) pr.1 pr.2

/-- The whole peakdect scan over the paired input samples. -/
def pdFold (δ : ℚ) (l : List (ℚ × ℚ)) : PDState := l.foldl (pdStep δ) pdInit

/-- Error taxonomy of peakdect, matching the three sys.exit calls.  The
nonScalarDelta case cannot arise in this typed embedding, where delta is
a scalar by construction; it is kept to mirror the source. -/
inductive PDErr
  | lengthMismatch
  | nonScalarDelta
  | nonPositiveDelta
deriving DecidableEq

/-- Embedding of peakdect(v, delta, x): the argument checks in source
order, then the hysteresis scan; returns (maxtab, mintab). -/
def peakdect (v : List ℚ) (δ : ℚ) (x : List ℚ) :
    Except PDErr (List (ℚ × ℚ) × List (ℚ × ℚ)) :=
  if v.length ≠ x.length then .error .lengthMismatch
  else if δ ≤ 0 then .error .nonPositiveDelta
  else
    let s := pdFold δ (x.zip v)
    .ok (s.maxtab, s.mintab)

/-- Alternation invariant of the scan state: while seeking a maximum
the two tabs have equal length, and while seeking a minimum the maxima
lead by exactly one; confirmed extrema therefore strictly alternate,
beginning with a maximum. -/
def pdInv (s : PDState) : Prop :=
  (s.lookformax = true → s.maxtab.length = s.mintab.length) ∧
  (s.lookformax = false → s.maxtab.length = s.mintab.length + 1)

/-- Truncating cast to uint32, modelling np.uint32 applied to a float
coordinate: truncation toward zero, then reduction mod 2 to the 32. -/
def toUint32 (q : ℚ) : ℤ := Int.emod (Int.tdiv q.num (q.den : ℤ)) (2 ^ 32)

/-- Embedding of find_peaks: run peakdect, keep coordinates at most 30,
and model the try/except around array(maxpks)[:,0], which raises (and
hence yields the sentinel [-1]) exactly when the tab is empty. -/
def find_peaks (flatspec : List ℚ) (sliding_window : ℚ) (f : List ℚ) :
    Except PDErr (List ℤ × List ℤ) :=
  match peakdect flatspec sliding_window f with
  | .error e => .error e
  | .ok (maxpks, minpks) =>
    let peakind : List ℤ :=
      if maxpks.isEmpty then [-1]
      else ((maxpks.map Prod.fst).filter (fun i => decide (i ≤ 30))).map toUint32
    let valleyind : List ℤ :=
      if minpks.isEmpty then [-1]
      else ((minpks.map Prod.fst).filter (fun i => decide (i ≤ 30))).map toUint32
    .ok (peakind, valleyind)

/-- Insertion of one element into an ascending-sorted list. -/
def insSorted (a : ℚ) : List ℚ → List ℚ
  | [] => [a]
  | b :: t => if a ≤ b then a :: b :: t else b :: insSorted a t

/-- Ascending sort, the embedding of the sort inside np.median and
np.percentile. -/
def sortQ : List ℚ → List ℚ
  | [] => []
  | a :: t => insSorted a (sortQ t)

/-- Embedding of np.median on a nonempty array: middle element of the
sorted data, or the mean of the two middle elements.  On an empty list
the value 0 is junk; callers that can see an empty array go through
medianNp. -/
def medianQ (l : List ℚ) : ℚ :=
  let s := sortQ l
  let m := s.length
  if m % 2 = 1 then s.getD (m / 2) 0
  else if m = 0 then 0
  else (s.getD (m / 2 - 1) 0 + s.getD (m / 2) 0) / 2

/-- Embedding of np.median including its NaN result on empty input;
none models NaN, and every numeric comparison against NaN is false. -/
def medianNp (l : List ℚ) : Option ℚ :=
  if l = [] then none else some (medianQ l)

/-- Embedding of np.percentile with linear interpolation between the
two nearest order statistics. -/
def percentileQ (l : List ℚ) (q : ℚ) : ℚ :=
  let s := sortQ l
  let m := s.length
  let rank := q * ((m : ℚ) - 1) / 100
  let lo := Int.toNat ⌊rank⌋
  s.getD lo 0 + (rank - (lo : ℚ)) * (s.getD (lo + 1) 0 - s.getD lo 0)

/-- Embedding of bootstrap(data): 1000 resampled medians at sample size
int(0.8 * n), summarized as (median, 2.5th, 97.5th percentile).  The
random draws of np.random.choice are supplied by the oracle pick, which
is reduced mod n so every draw hits the data.  When the truncated
sample size is zero every resampled median is NaN and the summary
degenerates to NaN; that path (and the empty-data error path) is
modelled by none. -/
def bootstrap (pick : ℕ → ℕ → ℕ) (data : List ℚ) : Option (ℚ × ℚ × ℚ) :=
  let total_points := data.length
  let sz := 4 * total_points / 5
  if sz = 0 then none
  else
    let bootstrap_dist :=
      (List.range 1000).map (fun i =>
        medianQ ((List.range sz).map (fun j => data.getD (pick i j % total_points) 0)))
    some (medianQ bootstrap_dist, percentileQ bootstrap_dist (5 / 2),
      percentileQ bootstrap_dist (195 / 2))

/-- Truncation of a nonnegative rational coordinate used as an array
index, modelling Python float indexing int() truncation. -/
def pyIndex (q : ℚ) : ℕ := Int.toNat (Int.tdiv q.num (q.den : ℤ))

/-- Raster stage of final_check_for_output: all (center, width) pairs
across repetitions whose center lies in [0, 30] and whose flatspec value
at the truncated center index is strictly positive.  The source walks
two parallel lists with one index; the zip realizes the same pairs. -/
def fcRaster (extcv_pks extcv_std : List (List ℚ)) (flatspec : List ℚ) :
    List (ℚ × ℚ) :=
  (((extcv_pks.zip extcv_std).map (fun cv => cv.1.zip cv.2)).flatten).filter
    (fun pr => decide (pr.1 ≤ 30) && decide (0 ≤ pr.1) &&
      decide (0 < flatspec.getD (pyIndex pr.1) 0))

/-- Histogram range of np.histogram: data min and max, widened by one
half on each side when they coincide, and the default (0, 1) on empty
input. -/
def histEdges (l : List ℚ) : ℚ × ℚ :=
  match l with
  | [] => (0, 1)
  | a :: t =>
    let mn := t.foldl min a
    let mx := t.foldl max a
    if mn = mx then (mn - 1 / 2, mx + 1 / 2) else (mn, mx)

/-- Edge i of the 5 equal-width histogram bins over the range (lo, hi). -/
def fcEdge (lo hi : ℚ) (i : ℕ) : ℚ := lo + (i : ℚ) * (hi - lo) / 5

/-- Member count of histogram bin i in np.histogram semantics: bins are
half-open except the last, which is closed. -/
def binCount (l : List ℚ) (lo hi : ℚ) (i : ℕ) : ℕ :=
  if i < 4 then
    (l.filter (fun z => decide (fcEdge lo hi i ≤ z) && decide (z < fcEdge lo hi (i + 1)))).length
  else
    (l.filter (fun z => decide (fcEdge lo hi 4 ≤ z) && decide (z ≤ fcEdge lo hi 5))).length

/-- Support test of the source: bin_count[i] >= 0.05 * len(raster). -/
def fcSupported (pksR : List ℚ) (lo hi : ℚ) (i : ℕ) : Bool :=
  decide ((1 / 20 : ℚ) * (pksR.length : ℚ) ≤ (binCount pksR lo hi i : ℚ))

/-- Members collected for a retained bin: the source recollects with
low <= center <= high, both edges inclusive. -/
def fcBinOf (raster : List (ℚ × ℚ)) (lo hi : ℚ) (i : ℕ) : List (ℚ × ℚ) :=
  raster.filter
    (fun pr => decide (fcEdge lo hi i ≤ pr.1) && decide (pr.1 ≤ fcEdge lo hi (i + 1)))

/-- Width gate of the output loop: the median fitted width of the bin
members must exist (a NaN median of an empty bin fails every
comparison) and be at most 10. -/
def fcMedOk (bin : List (ℚ × ℚ)) : Bool :=
  match medianNp (bin.map Prod.snd) with
  | none => false
  | some m => decide (m ≤ 10)

/-- Center-frequency entry appended for a surviving bin: component 0 of
bootstrap over the member centers (none models a NaN bootstrap). -/
def fcEntryCF (pick : ℕ → ℕ → ℕ) (bin : List (ℚ × ℚ)) : Option ℚ :=
  (bootstrap pick (bin.map Prod.fst)).map (fun t => t.1)

/-- Bandwidth entry appended for a surviving bin: component 0 of
bootstrap over 2.355 times the member widths. -/
def fcEntryBW (pick : ℕ → ℕ → ℕ) (bin : List (ℚ × ℚ)) : Option ℚ :=
  (bootstrap pick (bin.map (fun pr => (471 / 200) * pr.2))).map (fun t => t.1)

/-- Body of the output loop of final_check_for_output: a bin
contributes its two bootstrap summaries exactly when the median width
of its members exists (NaN fails every comparison) and is at most 10. -/
def fcStep (pick : ℕ → ℕ → ℕ) (acc : List (Option ℚ) × List (Option ℚ))
    (bin : List (ℚ × ℚ)) : List (Option ℚ) × List (Option ℚ) :=
  (medianNp (bin.map Prod.snd)).elim acc (fun med_std =>
    if med_std ≤ 10 then
      (acc.1 ++ [fcEntryCF pick bin], acc.2 ++ [fcEntryBW pick bin])
    else acc)

/-- Embedding of final_check_for_output: raster, histogram, support
filter, then the output loop that appends the bootstrap summaries of
each retained bin whose median width passes the gate. -/
def final_check_for_output (pick : ℕ → ℕ → ℕ)
    (extcv_pks extcv_std : List (List ℚ)) (flatspec : List ℚ) :
    List (Option ℚ) × List (Option ℚ) :=
  let raster := fcRaster extcv_pks extcv_std flatspec
  let pksR := raster.map Prod.fst
  let e := histEdges pksR
  let validIdx := (List.range 5).filter (fun i => fcSupported pksR e.1 e.2 i)
  let sorted_params := validIdx.map (fun i => fcBinOf raster e.1 e.2 i)
  sorted_params.foldl (fcStep pick) ([], [])

/-- Transcription of claim C3, to be compared with the source-shaped
final_check_for_output: the indices of the 5 histogram bins that meet
the support threshold and whose member median width is at most 10. -/
def fcQualIdx (extcv_pks extcv_std : List (List ℚ)) (flatspec : List ℚ) : List ℕ :=
  let raster := fcRaster extcv_pks extcv_std flatspec
  let pksR := raster.map Prod.fst
  let e := histEdges pksR
  (List.range 5).filter
    (fun i => fcSupported pksR e.1 e.2 i && fcMedOk (fcBinOf raster e.1 e.2 i))

/-- Transcription of claim C3: one output entry per qualifying bin, in
bin order, holding the bootstrap summaries of that bin. -/
def fcClaimOut (pick : ℕ → ℕ → ℕ)
    (extcv_pks extcv_std : List (List ℚ)) (flatspec : List ℚ) :
    List (Option ℚ) × List (Option ℚ) :=
  let raster := fcRaster extcv_pks extcv_std flatspec
  let pksR := raster.map Prod.fst
  let e := histEdges pksR
  let qual := fcQualIdx extcv_pks extcv_std flatspec
  (qual.map (fun i => fcEntryCF pick (fcBinOf raster e.1 e.2 i)),
   qual.map (fun i => fcEntryBW pick (fcBinOf raster e.1 e.2 i)))

/-- Largest element of a list, 0 on empty; embedding of the running
maximum inside np.argmax. -/
def listMax : List ℚ → ℚ
  | [] => 0
  | a :: t => t.foldl max a

/-- Index of the first occurrence of a value, list length if absent. -/
def firstIdxEq (v : ℚ) : List ℚ → ℕ
  | [] => 0
  | a :: t => if a = v then 0 else firstIdxEq v t + 1

/-- Embedding of np.argmax: the first index attaining the maximum. -/
def argmaxQ (l : List ℚ) : ℕ := firstIdxEq (listMax l) l

/-- Embedding of find_cluster(X).  The sklearn KMeans call is an
external library; its recorded inertia for each candidate count is
supplied by the oracle km.  The zero-cluster baseline is the summed
squared deviation from the median, the history is the baseline followed
by the five inertias, dx lists the consecutive differences, and the
returned count is argmax(dx) + 2. -/
def find_cluster (km : ℕ → ℚ) (X : List ℚ) : ℕ × List ℚ :=
  let med := medianQ X
  let zeroSoS := (X.map (fun z => (z - med) * (z - med))).sum
  let SoS_list := zeroSoS :: (List.range' 1 5).map km
  let dx := List.zipWith (fun a b => a - b) SoS_list SoS_list.tail
  (argmaxQ dx + 2, SoS_list)

/-- Mean of a list of rationals (0 on empty, where it is never used). -/
def listMean (l : List ℚ) : ℚ := l.sum / (l.length : ℚ)

/-- Total squared deviation of a pool of points from their mean: the
contribution of one cluster to the k-means objective. -/
def clusterCost (l : List ℚ) : ℚ :=
  (l.map (fun z => (z - listMean l) * (z - listMean l))).sum

/-- Points of X assigned to cluster c by the assignment a. -/
def kmMembers (X : List ℚ) (k : ℕ) (a : Fin X.length → Fin k) (c : Fin k) : List ℚ :=
  ((List.finRange X.length).filter (fun i => decide (a i = c))).map X.get

/-- Total intra-cluster sum of squares of one assignment of the points
of X to k clusters with centroid = cluster mean. -/
def assignCost (X : List ℚ) (k : ℕ) (a : Fin X.length → Fin k) : ℚ :=
  ∑ c : Fin k, clusterCost (kmMembers X k a c)

/-- Modelled from the spec: the kmeans helper wraps sklearn
cluster.KMeans, an external library whose randomized iterative code is
not part of this repository.  The spec describes it as partitioning the
pool and recording the resulting total squared intra-cluster distance;
this is modelled as the exact k-means objective, the least total
intra-cluster sum of squares over all assignments of the points to k
clusters. -/
def inertiaOpt (X : List ℚ) : ℕ → ℚ
  | 0 => clusterCost X
  | k + 1 =>
    (Finset.univ.image (assignCost X (k + 1))).min'
      ⟨assignCost X (k + 1) (fun _ => ⟨0, Nat.succ_pos k⟩),
        Finset.mem_image_of_mem _ (Finset.mem_univ _)⟩

/-- Weighted normal density curve sp.stats.norm.pdf scaled by an
amplitude is built from this unweighted density. -/
noncomputable def gaussPdf (loc scale x : ℝ) : ℝ :=
  Real.exp (-((x - loc) ^ 2) / (2 * scale ^ 2)) / (scale * Real.sqrt (2 * Real.pi))

/-- Embedding of norm(x, *args): the packed parameter vector holds k
centers, k standard deviations, k amplitudes and finally k itself; the
result is the sum of the k weighted normal density curves at x. -/
noncomputable def norm (x : ℝ) (args : List ℝ) : ℝ :=
  let number_of_gaussians : ℕ := ⌊args.getLastD 0⌋₊
  ∑ peaki ∈ Finset.range number_of_gaussians,
    args.getD (peaki + 2 * number_of_gaussians) 0 *
      gaussPdf (args.getD peaki 0) (args.getD (peaki + number_of_gaussians) 0) x

lemma stepMx_frame (s : PDState) (xi vi : ℚ) :
    (stepMx s xi vi).maxtab = s.maxtab ∧ (stepMx s xi vi).mintab = s.mintab ∧
      (stepMx s xi vi).lookformax = s.lookformax := by
  unfold stepMx
  cases hmx : s.mx with
  | none => exact ⟨rfl, rfl, rfl⟩
  | some m =>
    simp only [Option.elim_some]
    by_cases hc : m.2 < vi
    · rw [if_pos hc]
      exact ⟨rfl, rfl, rfl⟩
    · rw [if_neg hc]
      exact ⟨rfl, rfl, rfl⟩

lemma stepMn_frame (s : PDState) (xi vi : ℚ) :
    (stepMn s xi vi).maxtab = s.maxtab ∧ (stepMn s xi vi).mintab = s.mintab ∧
      (stepMn s xi vi).lookformax = s.lookformax := by
  unfold stepMn
  cases hmn : s.mn with
  | none => exact ⟨rfl, rfl, rfl⟩
  | some m =>
    simp only [Option.elim_some]
    by_cases hc : vi < m.2
    · rw [if_pos hc]
      exact ⟨rfl, rfl, rfl⟩
    · rw [if_neg hc]
      exact ⟨rfl, rfl, rfl⟩

lemma pdInv_of_frame (s s' : PDState) (hmax : s'.maxtab = s.maxtab)
    (hmin : s'.mintab = s.mintab) (hl : s'.lookformax = s.lookformax)
    (h : pdInv s) : pdInv s' := by
  unfold pdInv
  rw [hmax, hmin, hl]
  exact h

lemma stepTab_inv (δ : ℚ) (s : PDState) (xi vi : ℚ) (h : pdInv s) :
    pdInv (stepTab δ s xi vi) := by
  unfold stepTab
  by_cases hl : s.lookformax = true
  · rw [if_pos hl]
    cases hmx : s.mx with
    | none => exact h
    | some m =>
      simp only [Option.elim_some]
      by_cases hc : vi < m.2 - δ
      · rw [if_pos hc]
        refine ⟨fun hc2 => absurd hc2 (by simp), fun _ => ?_⟩
        have hlen := h.1 hl
        simp only [List.length_append, List.length_cons, List.length_nil]
        omega
      · rw [if_neg hc]
        exact h
  · rw [if_neg hl]
    have hf : s.lookformax = false := by
      cases hb : s.lookformax
      · rfl
      · exact absurd hb hl
    cases hmn : s.mn with
    | none => exact h
    | some m =>
      simp only [Option.elim_some]
      by_cases hc : m.2 + δ < vi
      · rw [if_pos hc]
        refine ⟨fun _ => ?_, fun hc2 => absurd hc2 (by simp)⟩
        have hlen := h.2 hf
        simp only [List.length_append, List.length_cons, List.length_nil]
        omega
      · rw [if_neg hc]
        exact h

lemma pdInv_init : pdInv pdInit :=
  ⟨fun _ => rfl, fun hc => nomatch hc⟩

lemma pdStep_inv (δ : ℚ) (s : PDState) (pr : ℚ × ℚ) (h : pdInv s) :
    pdInv (pdStep δ s pr) := by
  unfold pdStep
  apply stepTab_inv
  have h1 := stepMx_frame s pr.1 pr.2
  have h2 := stepMn_frame (stepMx s pr.1 pr.2) pr.1 pr.2
  exact pdInv_of_frame _ _ (h2.1.trans h1.1) (h2.2.1.trans h1.2.1)
    (h2.2.2.trans h1.2.2) h

lemma pdFoldl_inv (δ : ℚ) : ∀ (l : List (ℚ × ℚ)) (s : PDState),
    pdInv s → pdInv (l.foldl (pdStep δ) s) := by
  intro l
  induction l with
  | nil => intro s h; exact h
  | cons a t ih =>
    intro s h
    exact ih (pdStep δ s a) (pdStep_inv δ s a h)

lemma pdFold_inv (δ : ℚ) (l : List (ℚ × ℚ)) : pdInv (pdFold δ l) :=
  pdFoldl_inv δ l pdInit pdInv_init

/-- C10: for every input sequence and every positive delta, the maxima
and minima confirmed by peakdect strictly alternate beginning with a
maximum: after every prefix of the scan the confirmed-maxima count
equals the confirmed-minima count while seeking a maximum and exceeds
it by exactly one while seeking a minimum, so in particular the final
counts are equal or the maxima lead by exactly one. -/
theorem peakdect_alternation (v x : List ℚ) (δ : ℚ) (mt mnt : List (ℚ × ℚ))
    (hδ : 0 < δ) (h : peakdect v δ x = .ok (mt, mnt)) :
    (mt.length = mnt.length ∨ mt.length = mnt.length + 1) ∧
      ∀ n : ℕ, pdInv (pdFold δ ((x.zip v).take n)) := by
  refine ⟨?_, fun n => pdFold_inv δ _⟩
  unfold peakdect at h
  by_cases h1 : v.length ≠ x.length
  · rw [if_pos h1] at h
    cases h
  · rw [if_neg h1] at h
    by_cases h2 : δ ≤ 0
    · rw [if_pos h2] at h
      cases h
    · rw [if_neg h2] at h
      simp only [Except.ok.injEq, Prod.mk.injEq] at h
      obtain ⟨ha, hb⟩ := h
      have hinv := pdFold_inv δ (x.zip v)
      subst ha hb
      cases hlf : (pdFold δ (x.zip v)).lookformax
      · exact Or.inr (hinv.2 hlf)
      · exact Or.inl (hinv.1 hlf)

/-- Witness for C10 at a concrete unimodal input. -/
theorem peakdect_alternation_witness :
    (([((1 : ℚ), (2 : ℚ))] : List (ℚ × ℚ)).length =
        ([] : List (ℚ × ℚ)).length ∨
      ([((1 : ℚ), (2 : ℚ))] : List (ℚ × ℚ)).length =
        ([] : List (ℚ × ℚ)).length + 1) ∧
      ∀ n : ℕ,
        pdInv (pdFold 1 ((([0, 1, 2] : List ℚ).zip ([0, 2, 0] : List ℚ)).take n)) :=
  peakdect_alternation [0, 2, 0] [0, 1, 2] 1 [(1, 2)] [] (by norm_num)
    (by norm_num [peakdect, pdFold, pdStep, stepMx, stepMn, stepTab, pdInit, List.zip])

/-- C6: peakdect fails, with the error propagated to the caller, exactly
when the value and coordinate sequences differ in length or delta is
not positive; the non-scalar delta case of the source cannot arise in
this typed embedding, where delta is a scalar by construction.  In
particular every delta at most 0 fails and well-formed inputs never
fail. -/
theorem peakdect_error_iff (v x : List ℚ) (δ : ℚ) :
    (∃ e, peakdect v δ x = .error e) ↔ (v.length ≠ x.length ∨ δ ≤ 0) := by
  unfold peakdect
  by_cases h1 : v.length ≠ x.length
  · simp [h1]
  · by_cases h2 : δ ≤ 0
    · simp [h1, h2]
    · simp [h1, h2]

/-- Witness for C6: a non-positive delta fails. -/
theorem peakdect_error_iff_witness :
    ∃ e, peakdect [0] 0 [0] = Except.error e :=
  (peakdect_error_iff [0] [0] 0).mpr (Or.inr le_rfl)

lemma toUint32_nonneg (q : ℚ) : 0 ≤ toUint32 q :=
  Int.emod_nonneg _ (by norm_num)

lemma find_peaks_eq_of_peakdect (fs : List ℚ) (δ : ℚ) (f : List ℚ)
    (mt mnt : List (ℚ × ℚ)) (h : peakdect fs δ f = .ok (mt, mnt)) :
    find_peaks fs δ f = .ok
      (if mt.isEmpty then [-1]
        else ((mt.map Prod.fst).filter (fun i => decide (i ≤ 30))).map toUint32,
       if mnt.isEmpty then [-1]
        else ((mnt.map Prod.fst).filter (fun i => decide (i ≤ 30))).map toUint32) := by
  unfold find_peaks
  rw [h]

lemma sentinel_char (tab : List (ℚ × ℚ)) (res : List ℤ)
    (hres : res = if tab.isEmpty then [-1]
      else ((tab.map Prod.fst).filter (fun i => decide (i ≤ 30))).map toUint32) :
    (res = [-1] ↔ tab = []) ∧
      (tab ≠ [] →
        res = ((tab.map Prod.fst).filter (fun i => decide (i ≤ 30))).map toUint32) := by
  subst hres
  cases tab with
  | nil => simp
  | cons a t =>
    have hif : (if (a :: t : List (ℚ × ℚ)).isEmpty then ([-1] : List ℤ)
        else (((a :: t).map Prod.fst).filter (fun i => decide (i ≤ 30))).map toUint32)
        = (((a :: t).map Prod.fst).filter (fun i => decide (i ≤ 30))).map toUint32 := rfl
    rw [hif]
    constructor
    · constructor
      · intro hmap
        exfalso
        have hmem : (-1 : ℤ) ∈
            (((a :: t).map Prod.fst).filter (fun i => decide (i ≤ 30))).map toUint32 := by
          rw [hmap]
          simp
        obtain ⟨q, _, hq⟩ := List.mem_map.mp hmem
        have hge := toUint32_nonneg q
        rw [hq] at hge
        norm_num at hge
      · intro hnil
        cases hnil
    · intro hne2
      rfl

/-- C7 amended: the restriction layer keeps detections at or below
30 Hz and discards those above, and it returns the sentinel list [-1]
exactly when the detector reported no extrema of that polarity at all;
when extrema exist but all lie above 30 Hz it returns the empty list,
not the sentinel. -/
theorem find_peaks_sentinel_iff (fs : List ℚ) (δ : ℚ) (f : List ℚ)
    (mt mnt : List (ℚ × ℚ)) (pk vl : List ℤ)
    (h : peakdect fs δ f = .ok (mt, mnt))
    (h2 : find_peaks fs δ f = .ok (pk, vl)) :
    ((pk = [-1] ↔ mt = []) ∧
      (mt ≠ [] →
        pk = ((mt.map Prod.fst).filter (fun i => decide (i ≤ 30))).map toUint32)) ∧
    ((vl = [-1] ↔ mnt = []) ∧
      (mnt ≠ [] →
        vl = ((mnt.map Prod.fst).filter (fun i => decide (i ≤ 30))).map toUint32)) := by
  rw [find_peaks_eq_of_peakdect fs δ f mt mnt h] at h2
  simp only [Except.ok.injEq, Prod.mk.injEq] at h2
  obtain ⟨hpk, hvl⟩ := h2
  exact ⟨sentinel_char mt pk hpk.symm, sentinel_char mnt vl hvl.symm⟩

/-- Witness for C7 amended at an input with no detections at all. -/
theorem find_peaks_sentinel_iff_witness :
    ((([-1] : List ℤ) = [-1] ↔ ([] : List (ℚ × ℚ)) = []) ∧
      (([] : List (ℚ × ℚ)) ≠ [] →
        ([-1] : List ℤ) =
          ((([] : List (ℚ × ℚ)).map Prod.fst).filter
            (fun i => decide (i ≤ 30))).map toUint32)) ∧
    ((([-1] : List ℤ) = [-1] ↔ ([] : List (ℚ × ℚ)) = []) ∧
      (([] : List (ℚ × ℚ)) ≠ [] →
        ([-1] : List ℤ) =
          ((([] : List (ℚ × ℚ)).map Prod.fst).filter
            (fun i => decide (i ≤ 30))).map toUint32)) :=
  find_peaks_sentinel_iff [0] 1 [0] [] [] [-1] [-1]
    (by norm_num [peakdect, pdFold, pdStep, stepMx, stepMn, stepTab, pdInit, List.zip])
    (by norm_num [find_peaks, peakdect, pdFold, pdStep, stepMx, stepMn, stepTab,
      pdInit, List.zip])

/-- C7 counterexample: with a single detected maximum at 32 Hz, above
the 30 Hz cutoff, find_peaks returns the empty list for peaks, not the
single-element sentinel list that the claim asserts. -/
theorem find_peaks_above_cutoff_empty :
    find_peaks [0, 10, 0, 0] 1 [31, 32, 33, 34] = .ok ([], [-1]) ∧
      ([] : List ℤ) ≠ [-1] :=
  ⟨by norm_num [find_peaks, peakdect, pdFold, pdStep, stepMx, stepMn, stepTab,
      pdInit, List.zip], by simp⟩

lemma take_succ_getD {α : Type} (l : List α) (i : ℕ) (d : α) (h : i < l.length) :
    l.take (i + 1) = l.take i ++ [l.getD i d] := by
  induction l generalizing i with
  | nil => simp at h
  | cons a t ih =>
    cases i with
    | zero => simp
    | succ j =>
      have hj : j < t.length := by simpa using h
      simp [List.take_succ_cons, ih j hj, List.getD_cons_succ]

lemma pdFold_nil (δ : ℚ) : pdFold δ [] = pdInit := rfl

lemma pdFold_take_succ (δ : ℚ) (l : List (ℚ × ℚ)) (i : ℕ) (h : i < l.length) :
    pdFold δ (l.take (i + 1)) = pdStep δ (pdFold δ (l.take i)) (l.getD i (0, 0)) := by
  rw [pdFold, pdFold, take_succ_getD l i (0, 0) h, List.foldl_append]
  rfl

lemma getD_zip (x v : List ℚ) (i : ℕ) (h1 : i < x.length) (h2 : i < v.length) :
    (x.zip v).getD i (0, 0) = (x.getD i 0, v.getD i 0) := by
  induction x generalizing v i with
  | nil => simp at h1
  | cons a t ih =>
    cases v with
    | nil => simp at h2
    | cons b u =>
      cases i with
      | zero => simp [List.zip_cons_cons]
      | succ j =>
        simp only [List.zip_cons_cons, List.getD_cons_succ]
        exact ih u j (by simpa using h1) (by simpa using h2)

lemma rise_chain (l : List (ℚ × ℚ)) (p : ℕ)
    (hrise : ∀ i, i < p → (l.getD i (0, 0)).2 < (l.getD (i + 1) (0, 0)).2) :
    ∀ a b, a ≤ b → b ≤ p → (l.getD a (0, 0)).2 ≤ (l.getD b (0, 0)).2 := by
  intro a b
  induction b with
  | zero =>
    intro hab _
    have h0 : a = 0 := Nat.le_zero.mp hab
    rw [h0]
  | succ j ih =>
    intro hab hbp
    rcases eq_or_lt_of_le hab with heq | hlt
    · rw [heq]
    · have haj : a ≤ j := Nat.lt_succ_iff.mp hlt
      exact (ih haj (Nat.le_of_succ_le hbp)).trans
        (le_of_lt (hrise j (Nat.lt_of_succ_le hbp)))

lemma fall_chain_le (l : List (ℚ × ℚ)) (p : ℕ)
    (hfall : ∀ i, p ≤ i → i + 1 < l.length → (l.getD (i + 1) (0, 0)).2 < (l.getD i (0, 0)).2) :
    ∀ a b, p ≤ a → a ≤ b → b < l.length → (l.getD b (0, 0)).2 ≤ (l.getD a (0, 0)).2 := by
  intro a b hpa
  induction b with
  | zero =>
    intro hab _
    have h0 : a = 0 := Nat.le_zero.mp hab
    rw [h0]
  | succ j ih =>
    intro hab hbn
    rcases eq_or_lt_of_le hab with heq | hlt
    · rw [heq]
    · have haj : a ≤ j := Nat.lt_succ_iff.mp hlt
      have hj := hfall j (hpa.trans haj) hbn
      exact (le_of_lt hj).trans (ih haj (by omega))

lemma fall_chain_lt (l : List (ℚ × ℚ)) (p : ℕ)
    (hfall : ∀ i, p ≤ i → i + 1 < l.length → (l.getD (i + 1) (0, 0)).2 < (l.getD i (0, 0)).2) :
    ∀ a b, p ≤ a → a < b → b < l.length → (l.getD b (0, 0)).2 < (l.getD a (0, 0)).2 := by
  intro a b hpa hab hbn
  have h1 : (l.getD b (0, 0)).2 ≤ (l.getD (a + 1) (0, 0)).2 :=
    fall_chain_le l p hfall (a + 1) b (by omega) (by omega) hbn
  have h2 := hfall a hpa (by omega)
  exact lt_of_le_of_lt h1 h2

lemma pdStep_init (δ : ℚ) (hδ : 0 < δ) (a : ℚ × ℚ) :
    pdStep δ pdInit a = ⟨[], [], some a, some a, true⟩ := by
  have hc : ¬(a.2 < a.2 - δ) := by linarith
  unfold pdStep stepMx stepMn stepTab pdInit
  simp [hc]

lemma pd_rise (δ : ℚ) (hδ : 0 < δ) (l : List (ℚ × ℚ)) (p : ℕ) (hp : p < l.length)
    (hrise : ∀ i, i < p → (l.getD i (0, 0)).2 < (l.getD (i + 1) (0, 0)).2) :
    ∀ j, j ≤ p → pdFold δ (l.take (j + 1)) =
      ⟨[], [], some (l.getD j (0, 0)), some (l.getD 0 (0, 0)), true⟩ := by
  intro j
  induction j with
  | zero =>
    intro _
    rw [pdFold_take_succ δ l 0 (by omega), List.take_zero, pdFold_nil]
    exact pdStep_init δ hδ _
  | succ j ih =>
    intro hj1p
    have hjp : j ≤ p := by omega
    rw [pdFold_take_succ δ l (j + 1) (by omega), ih hjp]
    have hup : (l.getD j (0, 0)).2 < (l.getD (j + 1) (0, 0)).2 := hrise j (by omega)
    have h0j : (l.getD 0 (0, 0)).2 ≤ (l.getD j (0, 0)).2 :=
      rise_chain l p hrise 0 j (by omega) hjp
    have hmn : ¬((l.getD (j + 1) (0, 0)).2 < (l.getD 0 (0, 0)).2) :=
      not_lt.mpr (le_of_lt (lt_of_le_of_lt h0j hup))
    have htab : ¬((l.getD (j + 1) (0, 0)).2 < (l.getD (j + 1) (0, 0)).2 - δ) := by linarith
    simp only [List.getD_eq_getElem?_getD, Prod.mk_zero_zero] at hup hmn htab
    unfold pdStep stepMx stepMn stepTab
    simp [hup, hmn, htab]

lemma pd_fall_pre (δ : ℚ) (hδ : 0 < δ) (l : List (ℚ × ℚ)) (p : ℕ) (hp : p < l.length)
    (hrise : ∀ i, i < p → (l.getD i (0, 0)).2 < (l.getD (i + 1) (0, 0)).2)
    (hfall : ∀ i, p ≤ i → i + 1 < l.length → (l.getD (i + 1) (0, 0)).2 < (l.getD i (0, 0)).2)
    (hRδ : δ < (l.getD p (0, 0)).2 - (l.getD 0 (0, 0)).2) :
    ∀ j, p ≤ j → j < l.length →
      (∀ i, p < i → i ≤ j → ¬((l.getD i (0, 0)).2 < (l.getD p (0, 0)).2 - δ)) →
      pdFold δ (l.take (j + 1)) =
        ⟨[], [], some (l.getD p (0, 0)), some (l.getD 0 (0, 0)), true⟩ := by
  intro j
  induction j with
  | zero =>
    intro hpj _ _
    have hp0 : p = 0 := Nat.le_zero.mp hpj
    subst hp0
    exact pd_rise δ hδ l 0 hp hrise 0 le_rfl
  | succ j ih =>
    intro hpj hlen hnt
    rcases eq_or_lt_of_le hpj with heq | hlt
    · rw [← heq]
      exact pd_rise δ hδ l p hp hrise p le_rfl
    · have hpj' : p ≤ j := by omega
      have hstate := ih hpj' (by omega) (fun i h1 h2 => hnt i h1 (by omega))
      rw [pdFold_take_succ δ l (j + 1) hlen, hstate]
      have hdown : (l.getD (j + 1) (0, 0)).2 < (l.getD p (0, 0)).2 :=
        fall_chain_lt l p hfall p (j + 1) le_rfl (by omega) hlen
      have hmx : ¬((l.getD p (0, 0)).2 < (l.getD (j + 1) (0, 0)).2) :=
        not_lt.mpr (le_of_lt hdown)
      have hnt' : ¬((l.getD (j + 1) (0, 0)).2 < (l.getD p (0, 0)).2 - δ) :=
        hnt (j + 1) (by omega) le_rfl
      have hmn : ¬((l.getD (j + 1) (0, 0)).2 < (l.getD 0 (0, 0)).2) := by
        have h1 : (l.getD p (0, 0)).2 - δ ≤ (l.getD (j + 1) (0, 0)).2 := not_lt.mp hnt'
        have h2 : (l.getD 0 (0, 0)).2 < (l.getD p (0, 0)).2 - δ := by linarith
        exact not_lt.mpr (le_of_lt (lt_of_lt_of_le h2 h1))
      simp only [List.getD_eq_getElem?_getD, Prod.mk_zero_zero] at hmx hmn hnt'
      unfold pdStep stepMx stepMn stepTab
      simp [hmx, hmn, hnt']

lemma pd_at_trigger (δ : ℚ) (hδ : 0 < δ) (l : List (ℚ × ℚ)) (p : ℕ) (hp : p < l.length)
    (hrise : ∀ i, i < p → (l.getD i (0, 0)).2 < (l.getD (i + 1) (0, 0)).2)
    (hfall : ∀ i, p ≤ i → i + 1 < l.length → (l.getD (i + 1) (0, 0)).2 < (l.getD i (0, 0)).2)
    (hRδ : δ < (l.getD p (0, 0)).2 - (l.getD 0 (0, 0)).2)
    (q : ℕ) (hq1 : p < q) (hq2 : q < l.length)
    (hqt : (l.getD q (0, 0)).2 < (l.getD p (0, 0)).2 - δ)
    (hmin : ∀ i, p < i → i < q → ¬((l.getD i (0, 0)).2 < (l.getD p (0, 0)).2 - δ)) :
    pdFold δ (l.take (q + 1)) =
      ⟨[l.getD p (0, 0)], [], some (l.getD p (0, 0)), some (l.getD q (0, 0)), false⟩ := by
  obtain ⟨j, rfl⟩ : ∃ j, q = j + 1 := ⟨q - 1, by omega⟩
  have hstate := pd_fall_pre δ hδ l p hp hrise hfall hRδ j (by omega) (by omega)
    (fun i h1 h2 => hmin i h1 (by omega))
  rw [pdFold_take_succ δ l (j + 1) hq2, hstate]
  have hmx : ¬((l.getD p (0, 0)).2 < (l.getD (j + 1) (0, 0)).2) :=
    not_lt.mpr (le_of_lt (fall_chain_lt l p hfall p (j + 1) le_rfl (by omega) hq2))
  by_cases hmn : (l.getD (j + 1) (0, 0)).2 < (l.getD 0 (0, 0)).2
  · have hqt' := hqt
    simp only [List.getD_eq_getElem?_getD, Prod.mk_zero_zero] at hmx hmn hqt'
    unfold pdStep stepMx stepMn stepTab
    simp [hmx, hmn, hqt']
  · have hqt' := hqt
    simp only [List.getD_eq_getElem?_getD, Prod.mk_zero_zero] at hmx hmn hqt'
    unfold pdStep stepMx stepMn stepTab
    simp [hmx, hmn, hqt']

lemma pd_fall_post (δ : ℚ) (hδ : 0 < δ) (l : List (ℚ × ℚ)) (p : ℕ) (hp : p < l.length)
    (hrise : ∀ i, i < p → (l.getD i (0, 0)).2 < (l.getD (i + 1) (0, 0)).2)
    (hfall : ∀ i, p ≤ i → i + 1 < l.length → (l.getD (i + 1) (0, 0)).2 < (l.getD i (0, 0)).2)
    (hRδ : δ < (l.getD p (0, 0)).2 - (l.getD 0 (0, 0)).2)
    (q : ℕ) (hq1 : p < q) (hq2 : q < l.length)
    (hqt : (l.getD q (0, 0)).2 < (l.getD p (0, 0)).2 - δ)
    (hmin : ∀ i, p < i → i < q → ¬((l.getD i (0, 0)).2 < (l.getD p (0, 0)).2 - δ)) :
    ∀ j, q ≤ j → j < l.length →
      pdFold δ (l.take (j + 1)) =
        ⟨[l.getD p (0, 0)], [], some (l.getD p (0, 0)), some (l.getD j (0, 0)), false⟩ := by
  intro j
  induction j with
  | zero =>
    intro hqj _
    omega
  | succ j ih =>
    intro hqj hlen
    rcases eq_or_lt_of_le hqj with heq | hlt
    · rw [← heq]
      exact pd_at_trigger δ hδ l p hp hrise hfall hRδ q hq1 hq2 hqt hmin
    · have hqj' : q ≤ j := by omega
      have hstate := ih hqj' (by omega)
      rw [pdFold_take_succ δ l (j + 1) hlen, hstate]
      have hmx : ¬((l.getD p (0, 0)).2 < (l.getD (j + 1) (0, 0)).2) :=
        not_lt.mpr (le_of_lt (fall_chain_lt l p hfall p (j + 1) le_rfl (by omega) hlen))
      have hmn : (l.getD (j + 1) (0, 0)).2 < (l.getD j (0, 0)).2 :=
        hfall j (by omega) hlen
      have htab : ¬((l.getD (j + 1) (0, 0)).2 + δ < (l.getD (j + 1) (0, 0)).2) := by linarith
      simp only [List.getD_eq_getElem?_getD, Prod.mk_zero_zero] at hmx hmn htab
      unfold pdStep stepMx stepMn stepTab
      simp [hmx, hmn, htab]

/-- C2: on a strictly unimodal input that rises to the sample at index
p and then falls, with both the rise and the fall exceeding delta,
peakdect reports exactly one maximum, located at the true peak
coordinate x[p] with value v[p] (and no minima). -/
theorem peakdect_unimodal (v x : List ℚ) (δ : ℚ) (p : ℕ)
    (hlen : v.length = x.length) (hδ : 0 < δ) (hp : p < v.length)
    (hrise : ∀ i, i < p → v.getD i 0 < v.getD (i + 1) 0)
    (hfall : ∀ i, p ≤ i → i + 1 < v.length → v.getD (i + 1) 0 < v.getD i 0)
    (hriseδ : δ < v.getD p 0 - v.getD 0 0)
    (hfallδ : δ < v.getD p 0 - v.getD (v.length - 1) 0) :
    peakdect v δ x = .ok ([(x.getD p 0, v.getD p 0)], []) := by
  have hlzip : (x.zip v).length = v.length := by
    rw [List.length_zip, ← hlen, min_self]
  have hgd : ∀ i, i < v.length → (x.zip v).getD i (0, 0) = (x.getD i 0, v.getD i 0) :=
    fun i hi => getD_zip x v i (hlen ▸ hi) hi
  have hriseL : ∀ i, i < p →
      ((x.zip v).getD i (0, 0)).2 < ((x.zip v).getD (i + 1) (0, 0)).2 := by
    intro i hi
    rw [hgd i (by omega), hgd (i + 1) (by omega)]
    exact hrise i hi
  have hfallL : ∀ i, p ≤ i → i + 1 < (x.zip v).length →
      ((x.zip v).getD (i + 1) (0, 0)).2 < ((x.zip v).getD i (0, 0)).2 := by
    intro i h1 h2
    rw [hlzip] at h2
    rw [hgd (i + 1) h2, hgd i (by omega)]
    exact hfall i h1 h2
  have hpL : p < (x.zip v).length := by
    rw [hlzip]
    exact hp
  have hRδL : δ < ((x.zip v).getD p (0, 0)).2 - ((x.zip v).getD 0 (0, 0)).2 := by
    rw [hgd p hp, hgd 0 (by omega)]
    exact hriseδ
  have hplast : p < v.length - 1 := by
    by_contra hcon
    have hpe : p = v.length - 1 := by omega
    rw [hpe] at hfallδ
    linarith
  have hPlast : p < v.length - 1 ∧ (v.length - 1) < (x.zip v).length ∧
      ((x.zip v).getD (v.length - 1) (0, 0)).2 < ((x.zip v).getD p (0, 0)).2 - δ := by
    refine ⟨hplast, by rw [hlzip]; omega, ?_⟩
    rw [hgd (v.length - 1) (by omega), hgd p hp]
    linarith
  have hex : ∃ i, p < i ∧ i < (x.zip v).length ∧
      ((x.zip v).getD i (0, 0)).2 < ((x.zip v).getD p (0, 0)).2 - δ :=
    ⟨v.length - 1, hPlast⟩
  obtain ⟨hq1, hq2, hqt⟩ := Nat.find_spec hex
  have hmin : ∀ i, p < i → i < Nat.find hex →
      ¬(((x.zip v).getD i (0, 0)).2 < ((x.zip v).getD p (0, 0)).2 - δ) := by
    intro i h1 h2 ht
    exact Nat.find_min hex h2 ⟨h1, by omega, ht⟩
  have hqle : Nat.find hex ≤ v.length - 1 := Nat.find_min' hex hPlast
  have hfinal := pd_fall_post δ hδ (x.zip v) p hpL hriseL hfallL hRδL
    (Nat.find hex) hq1 hq2 hqt hmin (v.length - 1) hqle (by rw [hlzip]; omega)
  have htake : (v.length - 1) + 1 = (x.zip v).length := by
    rw [hlzip]
    omega
  rw [htake, List.take_length] at hfinal
  unfold peakdect
  rw [if_neg (fun hne => hne hlen), if_neg (not_le.mpr hδ)]
  show Except.ok ((pdFold δ (x.zip v)).maxtab, (pdFold δ (x.zip v)).mintab) = _
  rw [hfinal, hgd p hp]

/-- Witness for C2 at a concrete tent-shaped input. -/
theorem peakdect_unimodal_witness :
    peakdect [0, 1, 2, 1, 0] (1 / 2) [1, 2, 3, 4, 5] =
      .ok ([((3 : ℚ), (2 : ℚ))], []) := by
  have h := peakdect_unimodal [0, 1, 2, 1, 0] [1, 2, 3, 4, 5] (1 / 2) 2
    rfl (by norm_num) (by norm_num)
    (by intro i hi; interval_cases i <;> norm_num)
    (by intro i h1 h2
        simp only [List.length_cons, List.length_nil] at h2
        have h3 : i < 4 := by omega
        interval_cases i <;> norm_num)
    (by norm_num)
    (by norm_num)
  simpa using h

lemma insSorted_replicate (c : ℚ) (n : ℕ) :
    insSorted c (List.replicate n c) = List.replicate (n + 1) c := by
  cases n with
  | zero => rfl
  | succ m =>
    rw [List.replicate_succ]
    unfold insSorted
    rw [if_pos le_rfl, ← List.replicate_succ, ← List.replicate_succ]

lemma sortQ_replicate (n : ℕ) (c : ℚ) :
    sortQ (List.replicate n c) = List.replicate n c := by
  induction n with
  | zero => rfl
  | succ m ih =>
    rw [List.replicate_succ]
    show insSorted c (sortQ (List.replicate m c)) = _
    rw [ih, insSorted_replicate, List.replicate_succ]

lemma getD_replicate (n i : ℕ) (c : ℚ) (h : i < n) :
    (List.replicate n c).getD i 0 = c := by
  induction n generalizing i with
  | zero => omega
  | succ m ih =>
    rw [List.replicate_succ]
    cases i with
    | zero => rfl
    | succ j =>
      rw [List.getD_cons_succ]
      exact ih j (by omega)

lemma medianQ_replicate (n : ℕ) (c : ℚ) (h : 1 ≤ n) :
    medianQ (List.replicate n c) = c := by
  simp only [medianQ]
  rw [sortQ_replicate]
  simp only [List.length_replicate]
  by_cases hodd : n % 2 = 1
  · rw [if_pos hodd]
    exact getD_replicate n (n / 2) c (by omega)
  · rw [if_neg hodd, if_neg (by omega)]
    rw [getD_replicate n (n / 2 - 1) c (by omega), getD_replicate n (n / 2) c (by omega)]
    ring

lemma percentileQ_replicate_p25 (c : ℚ) :
    percentileQ (List.replicate 1000 c) (5 / 2) = c := by
  simp only [percentileQ]
  rw [sortQ_replicate]
  simp only [List.length_replicate, Nat.cast_ofNat]
  have hfl : (⌊(5 / 2 : ℚ) * ((1000 : ℚ) - 1) / 100⌋ : ℤ) = 24 := by norm_num
  rw [hfl]
  show (List.replicate 1000 c).getD (Int.toNat 24) 0 + _ = c
  have h24 : Int.toNat 24 = 24 := rfl
  rw [h24, getD_replicate 1000 24 c (by norm_num)]
  rw [show (24 : ℕ) + 1 = 25 from rfl, getD_replicate 1000 25 c (by norm_num)]
  ring

lemma percentileQ_replicate_p975 (c : ℚ) :
    percentileQ (List.replicate 1000 c) (195 / 2) = c := by
  simp only [percentileQ]
  rw [sortQ_replicate]
  simp only [List.length_replicate, Nat.cast_ofNat]
  have hfl : (⌊(195 / 2 : ℚ) * ((1000 : ℚ) - 1) / 100⌋ : ℤ) = 974 := by norm_num
  rw [hfl]
  show (List.replicate 1000 c).getD (Int.toNat 974) 0 + _ = c
  have h974 : Int.toNat 974 = 974 := rfl
  rw [h974, getD_replicate 1000 974 c (by norm_num)]
  rw [show (974 : ℕ) + 1 = 975 from rfl, getD_replicate 1000 975 c (by norm_num)]
  ring

/-- C4 amended: for a constant input array with at least two elements,
bootstrap returns the triple (c, c, c) exactly, for every realization
of the random draws; with fewer than two elements the truncated 80
percent sample size is zero, every resampled median is the NaN of an
empty sample, and the summary degenerates instead of equalling c. -/
theorem bootstrap_const (pick : ℕ → ℕ → ℕ) (c : ℚ) (n : ℕ) (h : 2 ≤ n) :
    bootstrap pick (List.replicate n c) = some (c, c, c) := by
  simp only [bootstrap, List.length_replicate]
  have hsz : ¬(4 * n / 5 = 0) := by omega
  rw [if_neg hsz]
  have hsample : ∀ i : ℕ, (List.range (4 * n / 5)).map
      (fun j => (List.replicate n c).getD (pick i j % n) 0) =
      List.replicate (4 * n / 5) c := by
    intro i
    refine List.eq_replicate_iff.mpr ⟨by simp, ?_⟩
    intro b hb
    simp only [List.mem_map, List.mem_range] at hb
    obtain ⟨j, _, hbe⟩ := hb
    rw [← hbe]
    exact getD_replicate n _ c (Nat.mod_lt _ (by omega))
  have hdist : (List.range 1000).map (fun i =>
      medianQ ((List.range (4 * n / 5)).map
        (fun j => (List.replicate n c).getD (pick i j % n) 0))) =
      List.replicate 1000 c := by
    refine List.eq_replicate_iff.mpr ⟨by simp, ?_⟩
    intro b hb
    simp only [List.mem_map, List.mem_range] at hb
    obtain ⟨i, _, hbe⟩ := hb
    rw [← hbe, hsample i]
    exact medianQ_replicate _ c (by omega)
  rw [hdist, medianQ_replicate 1000 c (by norm_num), percentileQ_replicate_p25 c,
    percentileQ_replicate_p975 c]

/-- Witness for C4 amended at a concrete two-element constant array. -/
theorem bootstrap_const_witness :
    bootstrap (fun _ _ => 0) (List.replicate 2 (3 : ℚ)) = some (3, 3, 3) :=
  bootstrap_const (fun _ _ => 0) 3 2 (by norm_num)

/-- C4 counterexample: on the one-element constant array [7] the
truncated sample size int(0.8 * 1) is zero, so the bootstrap summary is
the NaN value (modelled none) rather than the triple (7, 7, 7) the
claim asserts for every size. -/
theorem bootstrap_singleton_nan :
    bootstrap (fun _ _ => 0) [(7 : ℚ)] = none ∧
      (none : Option (ℚ × ℚ × ℚ)) ≠ some (7, 7, 7) :=
  ⟨rfl, by simp⟩

lemma foldl_const_acc {α β : Type} (l : List α) (b : β) :
    l.foldl (fun acc _ => acc) b = b := by
  induction l generalizing b with
  | nil => rfl
  | cons a t ih => exact ih b

lemma filter_map_comm {α β : Type} (f : α → β) (p : β → Bool) (l : List α) :
    (l.map f).filter p = (l.filter (fun a => p (f a))).map f := by
  induction l with
  | nil => rfl
  | cons a t ih =>
    simp only [List.map_cons, List.filter_cons]
    by_cases h : p (f a)
    · simp [h, ih]
    · simp [h, ih]

lemma fcStep_none (pick : ℕ → ℕ → ℕ) (acc : List (Option ℚ) × List (Option ℚ))
    (bin : List (ℚ × ℚ)) (h : medianNp (bin.map Prod.snd) = none) :
    fcStep pick acc bin = acc := by
  unfold fcStep
  rw [h]
  rfl

lemma fc_foldl_filter (pick : ℕ → ℕ → ℕ) :
    ∀ (bins : List (List (ℚ × ℚ))) (acc1 acc2 : List (Option ℚ)),
      bins.foldl (fcStep pick) (acc1, acc2) =
        (acc1 ++ (bins.filter fcMedOk).map (fcEntryCF pick),
         acc2 ++ (bins.filter fcMedOk).map (fcEntryBW pick)) := by
  intro bins
  induction bins with
  | nil => intro acc1 acc2; simp
  | cons b t ih =>
    intro acc1 acc2
    rw [List.foldl_cons, List.filter_cons]
    cases hmed : medianNp (b.map Prod.snd) with
    | none =>
      have hok : fcMedOk b = false := by simp [fcMedOk, hmed]
      rw [fcStep_none pick _ b hmed, hok, ih]
      simp
    | some m =>
      by_cases hle : m ≤ 10
      · have hstep : fcStep pick (acc1, acc2) b =
            (acc1 ++ [fcEntryCF pick b], acc2 ++ [fcEntryBW pick b]) := by
          unfold fcStep
          rw [hmed]
          simp [hle]
        have hok : fcMedOk b = true := by simp [fcMedOk, hmed, hle]
        rw [hstep, ih, hok]
        simp [List.append_assoc]
      · have hstep : fcStep pick (acc1, acc2) b = (acc1, acc2) := by
          unfold fcStep
          rw [hmed]
          simp [hle]
        have hok : fcMedOk b = false := by simp [fcMedOk, hmed, hle]
        rw [hstep, ih, hok]
        simp

/-- C5: on an empty FitResult accumulation the consensus aggregator
returns two empty output sequences, for every flatspec and every
realization of the bootstrap draws, and no error path exists. -/
theorem final_check_empty (pick : ℕ → ℕ → ℕ) (flatspec : List ℚ) :
    final_check_for_output pick [] [] flatspec = ([], []) := by
  have hraster : fcRaster [] [] flatspec = [] := by simp [fcRaster]
  simp only [final_check_for_output, hraster, List.map_nil]
  rw [fc_foldl_filter]
  have hbins : ∀ i : ℕ, fcBinOf [] (histEdges []).1 (histEdges []).2 i = [] := by
    intro i
    simp [fcBinOf]
  have hfil : ∀ idx : List ℕ,
      ((idx.map (fun i => fcBinOf [] (histEdges []).1 (histEdges []).2 i)).filter
        fcMedOk) = [] := by
    intro idx
    rw [filter_map_comm]
    have : ∀ i : ℕ, fcMedOk (fcBinOf [] (histEdges []).1 (histEdges []).2 i) = false := by
      intro i
      rw [hbins i]
      simp [fcMedOk, medianNp]
    simp [this]
  rw [hfil]
  simp

/-- C3: a histogram bin contributes to the final output exactly when
its member count meets the 5 percent support threshold and the median
fitted width of its members is at most 10; the outputs are precisely
the bootstrap summaries of the qualifying bins in bin order, as stated
by the claim transcription fcClaimOut. -/
theorem final_check_bin_filter (pick : ℕ → ℕ → ℕ)
    (extcv_pks extcv_std : List (List ℚ)) (flatspec : List ℚ) :
    final_check_for_output pick extcv_pks extcv_std flatspec =
      fcClaimOut pick extcv_pks extcv_std flatspec := by
  simp only [final_check_for_output, fcClaimOut, fcQualIdx]
  rw [fc_foldl_filter]
  rw [List.nil_append, List.nil_append]
  rw [filter_map_comm, List.filter_filter, List.map_map, List.map_map]
  simp only [Function.comp_def, Bool.and_comm]

lemma le_foldl_max (t : List ℚ) : ∀ a : ℚ, a ≤ t.foldl max a := by
  induction t with
  | nil => intro a; exact le_rfl
  | cons b u ih => intro a; exact (le_max_left a b).trans (ih (max a b))

lemma mem_le_foldl_max (t : List ℚ) : ∀ (a z : ℚ), z ∈ t → z ≤ t.foldl max a := by
  induction t with
  | nil => intro a z hz; simp at hz
  | cons b u ih =>
    intro a z hz
    rcases List.mem_cons.mp hz with h | h
    · rw [h]
      exact (le_max_right a b).trans (le_foldl_max u (max a b))
    · exact ih (max a b) z h

lemma foldl_max_choice (t : List ℚ) : ∀ a : ℚ, t.foldl max a = a ∨ t.foldl max a ∈ t := by
  induction t with
  | nil => intro a; exact Or.inl rfl
  | cons b u ih =>
    intro a
    rcases ih (max a b) with h | h
    · rcases max_choice a b with hm | hm
      · left
        rw [List.foldl_cons, h, hm]
      · right
        rw [List.foldl_cons, h, hm]
        exact List.mem_cons_self b u
    · right
      exact List.mem_cons_of_mem b h

lemma listMax_mem (l : List ℚ) (h : l ≠ []) : listMax l ∈ l := by
  cases l with
  | nil => exact absurd rfl h
  | cons a t =>
    show t.foldl max a ∈ a :: t
    rcases foldl_max_choice t a with h1 | h1
    · rw [h1]
      exact List.mem_cons_self a t
    · exact List.mem_cons_of_mem a h1

lemma le_listMax (l : List ℚ) (z : ℚ) (h : z ∈ l) : z ≤ listMax l := by
  cases l with
  | nil => simp at h
  | cons a t =>
    show z ≤ t.foldl max a
    rcases List.mem_cons.mp h with h1 | h1
    · rw [h1]
      exact le_foldl_max t a
    · exact mem_le_foldl_max t a z h1

lemma getD_mem (l : List ℚ) (j : ℕ) (h : j < l.length) : l.getD j 0 ∈ l := by
  induction l generalizing j with
  | nil => simp at h
  | cons a t ih =>
    cases j with
    | zero => simp
    | succ k =>
      rw [List.getD_cons_succ]
      exact List.mem_cons_of_mem a (ih k (by simpa using h))

lemma firstIdxEq_spec (v : ℚ) (l : List ℚ) (h : v ∈ l) :
    firstIdxEq v l < l.length ∧ l.getD (firstIdxEq v l) 0 = v ∧
      ∀ j, j < firstIdxEq v l → l.getD j 0 ≠ v := by
  induction l with
  | nil => simp at h
  | cons a t ih =>
    by_cases ha : a = v
    · simp only [firstIdxEq, if_pos ha]
      exact ⟨by simp, ha, fun j hj => absurd hj (by omega)⟩
    · simp only [firstIdxEq, if_neg ha]
      have hmem : v ∈ t := by
        rcases List.mem_cons.mp h with h1 | h1
        · exact absurd h1.symm ha
        · exact h1
      obtain ⟨ih1, ih2, ih3⟩ := ih hmem
      refine ⟨by simp only [List.length_cons]; omega, by simpa using ih2, ?_⟩
      intro j hj
      cases j with
      | zero => simpa using ha
      | succ k =>
        rw [List.getD_cons_succ]
        exact ih3 k (by omega)

lemma argmaxQ_spec (l : List ℚ) (h : l ≠ []) :
    argmaxQ l < l.length ∧
      (∀ j, j < l.length → l.getD j 0 ≤ l.getD (argmaxQ l) 0) ∧
      ∀ j, j < argmaxQ l → l.getD j 0 < l.getD (argmaxQ l) 0 := by
  have hmem := listMax_mem l h
  obtain ⟨h1, h2, h3⟩ := firstIdxEq_spec (listMax l) l hmem
  unfold argmaxQ
  refine ⟨h1, ?_, ?_⟩
  · intro j hj
    rw [h2]
    exact le_listMax l _ (getD_mem l j hj)
  · intro j hj
    have hle : l.getD j 0 ≤ listMax l := le_listMax l _ (getD_mem l j (by omega))
    rw [h2]
    exact lt_of_le_of_ne hle (h3 j hj)

/-- C1: for every observation pool X and every inertia oracle km, the
cluster-count selector returns the pair (i + 2, history) where history
is the six-element sequence of the zero-cluster baseline (summed
squared deviation from the median) followed by the five inertias, and
i is the first index attaining the maximum of the consecutive
differences history[j] - history[j+1]; the full history is returned
alongside the count. -/
theorem find_cluster_spec (km : ℕ → ℚ) (X : List ℚ) (hX : X ≠ []) :
    ∃ i : ℕ,
      find_cluster km X =
        (i + 2, [(X.map (fun z => (z - medianQ X) * (z - medianQ X))).sum,
          km 1, km 2, km 3, km 4, km 5]) ∧
      i < 5 ∧
      (∀ j, j < 5 →
        (find_cluster km X).2.getD j 0 - (find_cluster km X).2.getD (j + 1) 0 ≤
          (find_cluster km X).2.getD i 0 - (find_cluster km X).2.getD (i + 1) 0) ∧
      (∀ j, j < i →
        (find_cluster km X).2.getD j 0 - (find_cluster km X).2.getD (j + 1) 0 <
          (find_cluster km X).2.getD i 0 - (find_cluster km X).2.getD (i + 1) 0) := by
  obtain ⟨ha1, ha2, ha3⟩ := argmaxQ_spec
    [(X.map (fun z => (z - medianQ X) * (z - medianQ X))).sum - km 1,
      km 1 - km 2, km 2 - km 3, km 3 - km 4, km 4 - km 5] (by simp)
  have hlen5 : ([(X.map (fun z => (z - medianQ X) * (z - medianQ X))).sum - km 1,
      km 1 - km 2, km 2 - km 3, km 3 - km 4, km 4 - km 5] : List ℚ).length = 5 := rfl
  rw [hlen5] at ha1 ha2
  have hfc2 : (find_cluster km X).2 =
      [(X.map (fun z => (z - medianQ X) * (z - medianQ X))).sum,
        km 1, km 2, km 3, km 4, km 5] := rfl
  have hdx : ∀ j, j < 5 →
      (find_cluster km X).2.getD j 0 - (find_cluster km X).2.getD (j + 1) 0 =
        ([(X.map (fun z => (z - medianQ X) * (z - medianQ X))).sum - km 1,
          km 1 - km 2, km 2 - km 3, km 3 - km 4, km 4 - km 5] : List ℚ).getD j 0 := by
    intro j hj
    rw [hfc2]
    interval_cases j <;> rfl
  refine ⟨argmaxQ [(X.map (fun z => (z - medianQ X) * (z - medianQ X))).sum - km 1,
      km 1 - km 2, km 2 - km 3, km 3 - km 4, km 4 - km 5], rfl, ha1, ?_, ?_⟩
  · intro j hj
    rw [hdx j hj, hdx _ ha1]
    exact ha2 j hj
  · intro j hj
    rw [hdx j (by omega), hdx _ ha1]
    exact ha3 j hj

/-- Witness for C1 at a concrete one-point pool and the zero oracle. -/
theorem find_cluster_spec_witness :
    ∃ i : ℕ,
      find_cluster (fun _ => 0) [(1 : ℚ)] =
        (i + 2, [(([(1 : ℚ)]).map
            (fun z => (z - medianQ [(1 : ℚ)]) * (z - medianQ [(1 : ℚ)]))).sum,
          0, 0, 0, 0, 0]) ∧
      i < 5 ∧
      (∀ j, j < 5 →
        (find_cluster (fun _ => 0) [(1 : ℚ)]).2.getD j 0 -
            (find_cluster (fun _ => 0) [(1 : ℚ)]).2.getD (j + 1) 0 ≤
          (find_cluster (fun _ => 0) [(1 : ℚ)]).2.getD i 0 -
            (find_cluster (fun _ => 0) [(1 : ℚ)]).2.getD (i + 1) 0) ∧
      (∀ j, j < i →
        (find_cluster (fun _ => 0) [(1 : ℚ)]).2.getD j 0 -
            (find_cluster (fun _ => 0) [(1 : ℚ)]).2.getD (j + 1) 0 <
          (find_cluster (fun _ => 0) [(1 : ℚ)]).2.getD i 0 -
            (find_cluster (fun _ => 0) [(1 : ℚ)]).2.getD (i + 1) 0) :=
  find_cluster_spec (fun _ => 0) [(1 : ℚ)] (by simp)

lemma kmMembers_castSucc (X : List ℚ) (k : ℕ) (a : Fin X.length → Fin (k + 1))
    (c : Fin (k + 1)) :
    kmMembers X (k + 2) (fun i => (a i).castSucc) c.castSucc =
      kmMembers X (k + 1) a c := by
  unfold kmMembers
  congr 1
  apply List.filter_congr
  intro i _
  simp [Fin.castSucc_inj]

lemma kmMembers_last (X : List ℚ) (k : ℕ) (a : Fin X.length → Fin (k + 1)) :
    kmMembers X (k + 2) (fun i => (a i).castSucc) (Fin.last (k + 1)) = [] := by
  unfold kmMembers
  have hnil : (List.finRange X.length).filter
      (fun i => decide ((a i).castSucc = Fin.last (k + 1))) = [] := by
    rw [List.filter_eq_nil_iff]
    intro i _
    simp only [decide_eq_true_eq]
    intro hcon
    have h1 : ((a i).castSucc : Fin (k + 2)).val = (Fin.last (k + 1)).val :=
      congrArg Fin.val hcon
    simp only [Fin.coe_castSucc, Fin.val_last] at h1
    have h2 := (a i).isLt
    omega
  rw [hnil, List.map_nil]

lemma assignCost_castSucc (X : List ℚ) (k : ℕ) (a : Fin X.length → Fin (k + 1)) :
    assignCost X (k + 2) (fun i => (a i).castSucc) = assignCost X (k + 1) a := by
  unfold assignCost
  rw [Fin.sum_univ_castSucc, kmMembers_last X k a]
  have hzero : clusterCost ([] : List ℚ) = 0 := rfl
  rw [hzero, add_zero]
  apply Finset.sum_congr rfl
  intro c _
  rw [kmMembers_castSucc]

lemma inertiaOpt_succ_le (X : List ℚ) (k : ℕ) :
    inertiaOpt X (k + 2) ≤ inertiaOpt X (k + 1) := by
  simp only [inertiaOpt]
  obtain ⟨a, -, ha⟩ := Finset.mem_image.mp (Finset.min'_mem
    (Finset.univ.image (assignCost X (k + 1)))
    ⟨assignCost X (k + 1) (fun _ => ⟨0, Nat.succ_pos k⟩),
      Finset.mem_image_of_mem _ (Finset.mem_univ _)⟩)
  rw [← ha]
  apply Finset.min'_le
  rw [← assignCost_castSucc X k a]
  exact Finset.mem_image_of_mem _ (Finset.mem_univ _)

/-- C8: in the history recorded by the cluster-count selector running
on the exact k-means objective (the spec model of the external sklearn
call), the inertia entries are monotonically non-increasing as the
candidate count rises from 1 to 5: entry k+1 is at most entry k for
every k from 1 to 4, for every non-degenerate pool. -/
theorem kmeans_inertia_monotone (X : List ℚ) (k : ℕ)
    (hnd : ∃ a ∈ X, ∃ b ∈ X, a ≠ b) (hk1 : 1 ≤ k) (hk4 : k ≤ 4) :
    (find_cluster (inertiaOpt X) X).2.getD (k + 1) 0 ≤
      (find_cluster (inertiaOpt X) X).2.getD k 0 := by
  have hfc2 : (find_cluster (inertiaOpt X) X).2 =
      [(X.map (fun z => (z - medianQ X) * (z - medianQ X))).sum,
        inertiaOpt X 1, inertiaOpt X 2, inertiaOpt X 3, inertiaOpt X 4,
        inertiaOpt X 5] := rfl
  rw [hfc2]
  interval_cases k
  · simpa using inertiaOpt_succ_le X 0
  · simpa using inertiaOpt_succ_le X 1
  · simpa using inertiaOpt_succ_le X 2
  · simpa using inertiaOpt_succ_le X 3

/-- Witness for C8 at the two-point pool with two distinct values. -/
theorem kmeans_inertia_monotone_witness :
    (find_cluster (inertiaOpt [0, 1]) [(0 : ℚ), 1]).2.getD 2 0 ≤
      (find_cluster (inertiaOpt [0, 1]) [(0 : ℚ), 1]).2.getD 1 0 :=
  kmeans_inertia_monotone [(0 : ℚ), 1] 1
    ⟨0, by simp, 1, by simp, by norm_num⟩ (by norm_num) (by norm_num)

/-- C9: the Gaussian-mixture model function applied to a parameter
vector packed as centers, standard deviations, amplitudes and the
component count k returns the sum of the k weighted normal density
curves at each point, and in particular for one component with center
5, standard deviation 1 and amplitude 1 its value at x = 5 is
1 over the square root of 2 pi, the standard normal peak height. -/
theorem norm_gaussian_sum :
    (∀ (k : ℕ) (cs ss as : List ℝ) (x : ℝ),
      cs.length = k → ss.length = k → as.length = k →
      norm x (cs ++ ss ++ as ++ [(k : ℝ)]) =
        ∑ i ∈ Finset.range k,
          as.getD i 0 * gaussPdf (cs.getD i 0) (ss.getD i 0) x) ∧
    norm 5 [5, 1, 1, 1] = 1 / Real.sqrt (2 * Real.pi) := by
  constructor
  · intro k cs ss as x hc hs ha
    unfold norm
    have hlast : (cs ++ ss ++ as ++ [(k : ℝ)]).getLastD 0 = (k : ℝ) :=
      List.getLastD_concat 0 _ _
    rw [hlast, Nat.floor_natCast]
    apply Finset.sum_congr rfl
    intro i hi
    have hik := Finset.mem_range.mp hi
    have hcss : (cs ++ ss).length = k + k := by
      rw [List.length_append, hc, hs]
    have hcssas : (cs ++ ss ++ as).length = k + k + k := by
      rw [List.length_append, hcss, ha]
    have h1 : (cs ++ ss ++ as ++ [(k : ℝ)]).getD i 0 = cs.getD i 0 := by
      rw [List.getD_append (cs ++ ss ++ as) [(k : ℝ)] 0 i (by rw [hcssas]; omega),
        List.getD_append (cs ++ ss) as 0 i (by rw [hcss]; omega),
        List.getD_append cs ss 0 i (by rw [hc]; omega)]
    have h2 : (cs ++ ss ++ as ++ [(k : ℝ)]).getD (i + k) 0 = ss.getD i 0 := by
      rw [List.getD_append (cs ++ ss ++ as) [(k : ℝ)] 0 (i + k) (by rw [hcssas]; omega),
        List.getD_append (cs ++ ss) as 0 (i + k) (by rw [hcss]; omega),
        List.getD_append_right cs ss 0 (i + k) (by rw [hc]; omega)]
      have hidx : i + k - cs.length = i := by rw [hc]; omega
      rw [hidx]
    have h3 : (cs ++ ss ++ as ++ [(k : ℝ)]).getD (i + 2 * k) 0 = as.getD i 0 := by
      rw [List.getD_append (cs ++ ss ++ as) [(k : ℝ)] 0 (i + 2 * k) (by rw [hcssas]; omega),
        List.getD_append_right (cs ++ ss) as 0 (i + 2 * k) (by rw [hcss]; omega)]
      have hidx : i + 2 * k - (cs ++ ss).length = i := by rw [hcss]; omega
      rw [hidx]
    rw [h1, h2, h3]
  · unfold norm
    have hlast : (([5, 1, 1, 1] : List ℝ)).getLastD 0 = 1 := rfl
    rw [hlast, Nat.floor_one, Finset.sum_range_one]
    have hamp : (([5, 1, 1, 1] : List ℝ)).getD (0 + 2 * 1) 0 = 1 := rfl
    have hcen : (([5, 1, 1, 1] : List ℝ)).getD 0 0 = 5 := rfl
    have hstd : (([5, 1, 1, 1] : List ℝ)).getD (0 + 1) 0 = 1 := rfl
    rw [hamp, hcen, hstd]
    unfold gaussPdf
    norm_num

/-- Witness for C9 at a concrete one-component parameter vector. -/
theorem norm_gaussian_sum_witness :
    norm 0 ([2] ++ [1] ++ [3] ++ [((1 : ℕ) : ℝ)]) =
      ∑ i ∈ Finset.range 1,
        ([3] : List ℝ).getD i 0 *
          gaussPdf (([2] : List ℝ).getD i 0) (([1] : List ℝ).getD i 0) 0 :=
  norm_gaussian_sum.1 1 [2] [1] [3] 0 rfl rfl rfl

end PSDFit
